import Mathlib

/-!
Verification of the Strigo version-resolution core.

Shallow embedding of the version comparator (repository/version: ExtractMajor,
CompareVersions), the pattern-based extractor (Parser.ExtractVersion and
friends), and the Nexus listing resolver (repository/nexus.go:
GetAvailableVersions), with theorems checking the specification's claims.

Strings are modelled as Lean String values; character-level work happens on the
underlying char lists (Go indexes bytes, but every string handled here is valid
UTF-8, where byte order and code-point order agree).  Go integer parsing
(strconv.Atoi) is modelled with its sign handling and its signed 64-bit range
check.  The regex engine is an external collaborator and is modelled abstractly
as a compile function producing a FindStringSubmatch-style function; concrete
mini engines, faithful to Go regexp on the exact pattern sources used, appear
where concrete runs are evaluated.
-/

namespace Strigo

/-- Byte-lexicographic strict order on strings (the Go operator < on strings),
as char-list order. -/
def chLt : List Char → List Char → Bool
  | [], [] => false
  | [], _ :: _ => true
  | _ :: _, [] => false
  | a :: as, b :: bs => decide (a < b) || (a == b && chLt as bs)

/-- Value of a digit run; none as soon as a non-digit occurs (or see goAtoi for
the empty case). -/
def digitsValAux : List Char → Nat → Option Nat
  | [], acc => some acc
  | c :: rest, acc =>
    if c.isDigit then digitsValAux rest (acc * 10 + (c.toNat - 48)) else none

/-- Go strconv.Atoi: an optional sign, then one or more ASCII digits, rejected
outside the signed 64-bit integer range (ErrRange makes err non-nil, which the
source treats the same as a parse failure). -/
def goAtoi (cs : List Char) : Option Int :=
  let sd : Int × List Char :=
    match cs with
    | '+' :: rest => (1, rest)
    | '-' :: rest => (-1, rest)
    | _ => (1, cs)
  match sd.2 with
  | [] => none
  | _ :: _ =>
    match digitsValAux sd.2 0 with
    | none => none
    | some n =>
      let v : Int := sd.1 * (n : Int)
      if v < -(2 ^ 63) ∨ (2 ^ 63 - 1 : Int) < v then none else some v

/-- Go strings.Split with a one-char separator: keeps empty fields, and the
empty string yields one empty field. -/
def splitOnCh (sep : Char) : List Char → List (List Char)
  | [] => [[]]
  | c :: rest =>
    let ps := splitOnCh sep rest
    if c = sep then [] :: ps
    else
      match ps with
      | [] => [[c]]
      | p :: ps2 => (c :: p) :: ps2

/-- The separator rewrite of CompareVersions: u and _ become dots. -/
def sepToDot (c : Char) : Char := if c = 'u' ∨ c = '_' then '.' else c

/-- Normalized dot-separated parts of a version string
(strings.Split(strings.Replace(strings.Replace(v, "u", ".", -1), "_", ".", -1), ".")). -/
def verParts (v : String) : List (List Char) := splitOnCh '.' (v.data.map sepToDot)

/-- The comparison loop of CompareVersions over the normalized parts: positions
up to the shorter length decide (numerically when both parts Atoi-parse, else
byte-lexicographically); when every compared position agrees the shorter part
list is older. -/
def cmpParts : List (List Char) → List (List Char) → Bool
  | [], bs => decide (([] : List (List Char)).length < bs.length)
  | _ :: _, [] => false
  | a :: as, b :: bs =>
    match goAtoi a, goAtoi b with
    | some n1, some n2 =>
      if n1 < n2 then true else if n2 < n1 then false else cmpParts as bs
    | _, _ =>
      if chLt a b then true else if chLt b a then false else cmpParts as bs

/-- CompareVersions from repository/version: true when v1 is older than v2. -/
def CompareVersions (v1 v2 : String) : Bool :=
  cmpParts (verParts v1) (verParts v2)

/-- The anchored Go regex matching a leading digit run followed by a literal
separator (the source patterns are anchored with a caret, the run is greedy and
cannot backtrack past the maximal digit run because the separator is not a
digit): some digit run exactly when the string starts with one or more digits
immediately followed by sep. -/
def leadDigitsThen (sep : Char) (cs : List Char) : Option (List Char) :=
  match cs.takeWhile Char.isDigit, cs.dropWhile Char.isDigit with
  | [], _ => none
  | _, [] => none
  | ds, c :: _ => if c = sep then some ds else none

/-- Go strings.TrimLeft with the cutset of ASCII letters, dash and underscore. -/
def trimAlphaDash (cs : List Char) : List Char :=
  cs.dropWhile fun c => c.isAlpha || c == '-' || c == '_'

/-- ExtractMajor from repository/version: empty-input guard, the two anchored
regex fast paths (digits then dot, digits then u), then the fallback that trims
the alphabetic/dash/underscore head, requires a dot or a u somewhere in the
remainder, takes the remainder up to the first dot and then up to the first u
(the zeroth field of Split on dots, then of Split on u), and returns it when
strconv.Atoi accepts it.  The Go locals cleanVersion and majorPart are inlined
here. -/
def ExtractMajor (version : String) : String :=
  if version.data.isEmpty then ""
  else
    match leadDigitsThen '.' version.data with
    | some d => String.mk d
    | none =>
      match leadDigitsThen 'u' version.data with
      | some d => String.mk d
      | none =>
        if !((trimAlphaDash version.data).contains '.')
            && !((trimAlphaDash version.data).contains 'u') then ""
        else
          match goAtoi (((trimAlphaDash version.data).takeWhile
              fun c => !(c == '.')).takeWhile fun c => !(c == 'u')) with
          | some _ =>
            String.mk (((trimAlphaDash version.data).takeWhile
              fun c => !(c == '.')).takeWhile fun c => !(c == 'u'))
          | none => ""

/-- Position-wise part comparison as the claim words it: numeric when both
parts parse as integers (Go integer parsing), byte-lexicographic otherwise. -/
def partOrd (a b : List Char) : Ordering :=
  match goAtoi a, goAtoi b with
  | some m, some n => if m < n then .lt else if n < m then .gt else .eq
  | _, _ => if chLt a b then .lt else if chLt b a then .gt else .eq

/-- Reference comparator following the claim's words: normalize and split both
strings, decide at the first position where the parts differ, and when all
compared positions agree, v1 is older exactly when it has strictly fewer
parts. -/
def specOlder (v1 v2 : String) : Bool :=
  let ps1 := verParts v1
  let ps2 := verParts v2
  match (ps1.zip ps2).find? (fun p => !(partOrd p.1 p.2 == Ordering.eq)) with
  | some p => partOrd p.1 p.2 == Ordering.lt
  | none => decide (ps1.length < ps2.length)

/-- ExtractMajor as the claim words it: the leading digit run when the input
starts with digits followed by a dot or by a u; otherwise the same two checks
retried on the remainder after stripping the leading alphabetic/dash/underscore
run; empty when the cleaned remainder contains neither a dot nor a u (the
cases the claim leaves unspecified are mapped to empty, and no comparison below
rests on them). -/
def claimExtractMajor (version : String) : String :=
  let cs := version.data
  match leadDigitsThen '.' cs with
  | some d => String.mk d
  | none =>
  match leadDigitsThen 'u' cs with
  | some d => String.mk d
  | none =>
  let clean := trimAlphaDash cs
  match leadDigitsThen '.' clean with
  | some d => String.mk d
  | none =>
  match leadDigitsThen 'u' clean with
  | some d => String.mk d
  | none => ""

/-- A pattern entry of the loaded TOML table (name, sdk type, description,
ordered regex sources). -/
structure Pattern where
  name : String
  type : String
  description : String
  patterns : List String
deriving Repr, DecidableEq

/-- The loaded parser: the ordered pattern table, stored verbatim. -/
structure Parser where
  patterns : List Pattern
deriving Repr, DecidableEq

/-- The Go regexp collaborator, abstractly: compiling a pattern source yields
none (compile error) or a FindStringSubmatch-style function returning none (no
match) or the match list (whole match at index 0, capture groups after it;
a group that matched nothing contributes an empty string). -/
abbrev RegexEngine := String → Option (String → Option (List String))

/-- One regex attempt of the extraction loops: compile (a failure is skipped),
run FindStringSubmatch, and yield matches[1] exactly when len(matches) > 1. -/
def tryRegex (eng : RegexEngine) (rx path : String) : Option String :=
  match eng rx with
  | none => none
  | some m =>
    match m path with
    | none => none
    | some ms => ms[1]?

/-- The inner loop over one pattern's regex list: first regex that yields a
submatch wins. -/
def patternFirst (eng : RegexEngine) (pat : Pattern) (path : String) : Option String :=
  pat.patterns.findSome? fun rx => tryRegex eng rx path

/-- Parser.ExtractVersion: outer loop over the pattern table in stored order,
inner loop over each regex list in stored order, returning the first
(version, patternName); the source's error return is none here. -/
def Parser.ExtractVersion (eng : RegexEngine) (p : Parser) (path : String) :
    Option (String × String) :=
  p.patterns.findSome? fun pat => (patternFirst eng pat path).map fun v => (v, pat.name)

/-- Parser.ExtractVersionByType: as ExtractVersion, but a pattern whose type
differs from the requested one and is not the wildcard star is skipped. -/
def Parser.ExtractVersionByType (eng : RegexEngine) (p : Parser)
    (path sdkType : String) : Option (String × String) :=
  p.patterns.findSome? fun pat =>
    if !(pat.type == sdkType) && !(pat.type == "*") then none
    else (patternFirst eng pat path).map fun v => (v, pat.name)

/-- The pattern table flattened to (patternName, regex source) rules, table
order first, regex-list order within a pattern. -/
def flatRules (pats : List Pattern) : List (String × String) :=
  pats.flatMap fun pat => pat.patterns.map fun rx => (pat.name, rx)

/-- One regex attempt as the claim words it: the first capture group must be
non-empty to count. -/
def tryRegexNE (eng : RegexEngine) (rx path : String) : Option String :=
  match tryRegex eng rx path with
  | some v => if v = "" then none else some v
  | none => none

/-- Extraction following the claim literally: the first rule in flattened order
whose match yields a NON-EMPTY first capture group wins. -/
def claimExtract (eng : RegexEngine) (p : Parser) (path : String) :
    Option (String × String) :=
  (flatRules p.patterns).findSome? fun nr => (tryRegexNE eng nr.2 path).map fun v => (v, nr.1)

/-- Extraction as amended: the first rule in flattened order whose match yields
a first capture group (possibly empty) wins. -/
def specExtract (eng : RegexEngine) (p : Parser) (path : String) :
    Option (String × String) :=
  (flatRules p.patterns).findSome? fun nr => (tryRegex eng nr.2 path).map fun v => (v, nr.1)

/-- The patterns applicable to an sdk type: matching type or the wildcard. -/
def typedPats (pats : List Pattern) (sdkType : String) : List Pattern :=
  pats.filter fun pat => pat.type == sdkType || pat.type == "*"

/-- Typed extraction as amended: flattened first-match over the applicable
patterns only. -/
def specExtractByType (eng : RegexEngine) (p : Parser) (path sdkType : String) :
    Option (String × String) :=
  (flatRules (typedPats p.patterns sdkType)).findSome? fun nr =>
    (tryRegex eng nr.2 path).map fun v => (v, nr.1)

/-- An item of a Nexus listing page (the checksum map of the source is inert
here and omitted). -/
structure NexusAsset where
  path : String
  downloadUrl : String
deriving Repr, DecidableEq

/-- SDKAsset from repository/nexus.go. -/
structure SDKAsset where
  version : String
  downloadUrl : String
  filename : String
  size : Int
deriving Repr, DecidableEq

/-- Go strings.TrimPrefix(s, "/"): drop one leading slash when present. -/
def trimLeadSlash (cs : List Char) : List Char :=
  match cs with
  | c :: rest => if c = '/' then rest else c :: rest
  | [] => []

/-- The claim-side first normalization step: ensure one leading slash. -/
def ensureLeadSlash (cs : List Char) : List Char :=
  match cs with
  | c :: rest => if c = '/' then c :: rest else '/' :: c :: rest
  | [] => ['/']

/-- The source's path-prefix normalization: a slash prepended to the
slash-trimmed configured path, then a trailing slash ensured. -/
def normDistPath (dp : String) : List Char :=
  if ('/' :: trimLeadSlash dp.data).getLast? = some '/' then
    '/' :: trimLeadSlash dp.data
  else ('/' :: trimLeadSlash dp.data) ++ ['/']

/-- The claim-side normalization: the configured path normalized to begin with
a slash and end with a slash. -/
def specNormDistPath (dp : String) : List Char :=
  if (ensureLeadSlash dp.data).getLast? = some '/' then ensureLeadSlash dp.data
  else ensureLeadSlash dp.data ++ ['/']

/-- Go strings.HasPrefix on char lists. -/
def hasPre (s pre : List Char) : Bool := pre.isPrefixOf s

/-- The retention test of the processing loop: an item survives the path check
when the configured path is empty or the item path starts with the normalized
path. -/
def retainedItem (dp : String) (item : NexusAsset) : Bool :=
  dp == "" || hasPre item.path.data (normDistPath dp)

/-- The per-item processing loop of GetAvailableVersions: path filter, typed
extraction, first-wins deduplication on the extracted version string.  The Go
loop appends each kept asset to a slice; emitting it in front of the recursive
call produces the same encounter order. -/
def collectLoop (eng : RegexEngine) (p : Parser) (dp sdkType : String) :
    List String → List NexusAsset → List SDKAsset
  | _, [] => []
  | seen, item :: rest =>
    if !(retainedItem dp item) then collectLoop eng p dp sdkType seen rest
    else
      match Parser.ExtractVersionByType eng p item.path sdkType with
      | none => collectLoop eng p dp sdkType seen rest
      | some (v, _) =>
        if seen.contains v then collectLoop eng p dp sdkType seen rest
        else ⟨v, item.downloadUrl, v, 0⟩ :: collectLoop eng p dp sdkType (v :: seen) rest

/-- The processing loop started with the empty seen set. -/
def collectAssets (eng : RegexEngine) (p : Parser) (dp sdkType : String)
    (items : List NexusAsset) : List SDKAsset :=
  collectLoop eng p dp sdkType [] items

/-- Go strings.Contains on char lists (first argument the needle). -/
def containsSub (sub : List Char) : List Char → Bool
  | [] => sub.isEmpty
  | c :: rest => sub.isPrefixOf (c :: rest) || containsSub sub rest

/-- The optional substring filter on versions. -/
def filterAssets (versionFilter : String) (assets : List SDKAsset) : List SDKAsset :=
  if versionFilter == "" then assets
  else assets.filter fun a => containsSub versionFilter.data a.version.data

/-- The sort comparison of the source: Version of the left strictly greater. -/
def versionGtB (a b : SDKAsset) : Bool := chLt b.version.data a.version.data

/-- Insertion step of the descending sort. -/
def insertDesc (a : SDKAsset) : List SDKAsset → List SDKAsset
  | [] => [a]
  | b :: bs => if versionGtB a b then a :: b :: bs else b :: insertDesc a bs

/-- Descending sort by the Go string comparison on Version.  The pipeline sorts
only duplicate-free version lists, on which the sorted order is unique, so any
correct sort (the source uses sort.Slice) produces this result. -/
def sortAssets : List SDKAsset → List SDKAsset
  | [] => []
  | a :: as => insertDesc a (sortAssets as)

/-- The post-pagination body of GetAvailableVersions: process the items, apply
the optional version filter, report the empty result as an error, else sort
descending.  The Go local sdkAssets (reassigned after filtering) is inlined
here. -/
def availableCore (eng : RegexEngine) (p : Parser)
    (dp sdkType versionFilter : String) (allItems : List NexusAsset) :
    Except String (List SDKAsset) :=
  if (filterAssets versionFilter (collectAssets eng p dp sdkType allItems)).isEmpty then
    if !(versionFilter == "") then
      Except.error ("no version " ++ versionFilter ++ " found for " ++ dp)
    else Except.error ("no versions found for " ++ dp)
  else
    Except.ok (sortAssets (filterAssets versionFilter
      (collectAssets eng p dp sdkType allItems)))

/-- One page of the remote listing: its items and its continuation token (the
empty token means the final page). -/
structure ListingPage where
  items : List NexusAsset
  continuationToken : String
deriving Repr, DecidableEq

/-- The pagination loop over the successive page responses: each fetched page's
items are appended to the accumulator; a non-empty continuation token fetches
the next response, an empty one stops the loop.  Returns the accumulated items
and how many pages were fetched. -/
def paginate : List ListingPage → List NexusAsset × Nat
  | [] => ([], 0)
  | pg :: rest =>
    if pg.continuationToken == "" then (pg.items, 1)
    else
      let r := paginate rest
      (pg.items ++ r.1, r.2 + 1)

/-- GetAvailableVersions from repository/nexus.go: pagination over the page
responses, then the processing pipeline on the accumulated items. -/
def GetAvailableVersions (eng : RegexEngine) (p : Parser)
    (dp sdkType versionFilter : String) (pages : List ListingPage) :
    Except String (List SDKAsset) :=
  availableCore eng p dp sdkType versionFilter (paginate pages).1

/-- The version string a typed extraction produces for an item, when any. -/
def extractedV (eng : RegexEngine) (p : Parser) (ty : String) (i : NexusAsset) :
    Option String :=
  (Parser.ExtractVersionByType eng p i.path ty).map Prod.fst

/-- Leftmost submatch of the Go regex source matching one or more digits inside
one capturing group: the maximal digit run starting at the first digit, the
capture equal to the whole match. -/
def numAt : List Char → Option (List String)
  | [] => none
  | c :: rest =>
    if c.isDigit then
      let d := (c :: rest).takeWhile Char.isDigit
      some [String.mk d, String.mk d]
    else numAt rest

/-- A mini engine implementing the single Go pattern source matching a captured
digit run, failing to compile everything else. -/
def engNum : RegexEngine := fun rx =>
  if rx = "(\\d+)" then some (fun path => numAt path.data) else none

/-- Leftmost submatch of the Go regex source (b*)c: at each start position the
greedy b-run must be followed by c (no shorter run can, since the next char
would then be b, not c); the capture is the possibly empty b-run. -/
def bsCAt : List Char → Option (List String)
  | [] => none
  | c :: rest =>
    let bs := (c :: rest).takeWhile fun x => x == 'b'
    match (c :: rest).dropWhile fun x => x == 'b' with
    | 'c' :: _ => some [String.mk (bs ++ ['c']), String.mk bs]
    | _ => bsCAt rest

/-- A mini engine implementing the single Go pattern source (b*)c. -/
def engBsC : RegexEngine := fun rx =>
  if rx = "(b*)c" then some (fun path => bsCAt path.data) else none

example : ExtractMajor "8u442b06" = "8" := by decide
example : ExtractMajor "21" = "" := by decide
example : ExtractMajor "" = "" := by decide
example : ExtractMajor "jdk-17.0.11" = "17" := by decide
example : ExtractMajor "11.0.26_4" = "11" := by decide
example : CompareVersions "21.0.6" "21.0.6_7" = true := by decide
example : CompareVersions "11.0.26_4" "11.0.27_5" = true := by decide
example : CompareVersions "8u442b06" "8u432b06" = false := by decide
example : specOlder "21.0.6" "21.0.6_7" = true := by decide

/-- The head step of the comparison loop, phrased through the position-wise
comparison. -/
theorem cmpParts_head (a b : List Char) (as bs : List (List Char)) :
    cmpParts (a :: as) (b :: bs) =
      (match partOrd a b with
       | Ordering.lt => true
       | Ordering.gt => false
       | Ordering.eq => cmpParts as bs) := by
  simp only [cmpParts, partOrd]
  rcases h1 : goAtoi a with _ | n1 <;> rcases h2 : goAtoi b with _ | n2 <;>
    simp only [] <;> split_ifs <;> rfl

/-- The comparison loop computes the claim's first-differing-position rule. -/
theorem cmpParts_spec (as : List (List Char)) : ∀ bs,
    cmpParts as bs =
      (match (as.zip bs).find? (fun p => !(partOrd p.1 p.2 == Ordering.eq)) with
       | some p => partOrd p.1 p.2 == Ordering.lt
       | none => decide (as.length < bs.length)) := by
  induction as with
  | nil => intro bs; cases bs <;> simp [cmpParts]
  | cons a as ih =>
    intro bs
    cases bs with
    | nil => simp [cmpParts]
    | cons b bs =>
      rcases h : partOrd a b with _ | _ | _
      · simp only [cmpParts_head, h, List.zip_cons_cons]
        rw [List.find?_cons_of_pos _ (by simp [h]; decide)]
        simp only [h]
        decide
      · simp only [cmpParts_head, h, List.zip_cons_cons]
        rw [List.find?_cons_of_neg _ (by simp [h]; decide)]
        have hlen : decide ((a :: as).length < (b :: bs).length)
            = decide (as.length < bs.length) := by
          simp [Nat.succ_lt_succ_iff]
        rw [hlen]
        exact ih bs
      · simp only [cmpParts_head, h, List.zip_cons_cons]
        rw [List.find?_cons_of_pos _ (by simp [h]; decide)]
        simp only [h]
        decide

/-- Asymmetry of the byte-lexicographic order. -/
theorem chLt_asymm (a : List Char) : ∀ b, chLt a b = true → chLt b a = false := by
  induction a with
  | nil =>
    intro b h
    cases b with
    | nil => simp [chLt] at h
    | cons d ds => simp [chLt]
  | cons c cs ih =>
    intro b h
    cases b with
    | nil => simp [chLt] at h
    | cons d ds =>
      simp only [chLt, Bool.or_eq_true, decide_eq_true_eq, Bool.and_eq_true,
        beq_iff_eq] at h
      rcases h with h | ⟨hcd, h⟩
      · have h1 : decide (d < c) = false := decide_eq_false (lt_asymm h)
        have h2 : (d == c) = false := beq_eq_false_iff_ne.mpr (ne_of_gt h)
        simp [chLt, h1, h2]
      · subst hcd
        have h1 : decide (c < c) = false := decide_eq_false (lt_irrefl _)
        simp [chLt, h1, ih ds h]

/-- Swapping the arguments of the position-wise comparison swaps the outcome. -/
theorem partOrd_swap (a b : List Char) : partOrd b a = (partOrd a b).swap := by
  have mixed : (if chLt b a then Ordering.lt else if chLt a b then Ordering.gt
        else Ordering.eq)
      = (if chLt a b then Ordering.lt else if chLt b a then Ordering.gt
        else Ordering.eq).swap := by
    by_cases hab : chLt a b = true
    · simp [hab, chLt_asymm _ _ hab, Ordering.swap]
    · by_cases hba : chLt b a = true
      · simp [hab, hba, Ordering.swap]
      · simp [hab, hba, Ordering.swap]
  simp only [partOrd]
  rcases h1 : goAtoi a with _ | n1 <;> rcases h2 : goAtoi b with _ | n2
  · exact mixed
  · exact mixed
  · exact mixed
  · rcases lt_trichotomy n1 n2 with h | h | h
    · simp [h, lt_asymm h, Ordering.swap]
    · subst h; simp [lt_irrefl, Ordering.swap]
    · simp [h, lt_asymm h, Ordering.swap]

/-- The comparison loop never holds in both directions. -/
theorem cmpParts_asymm (as : List (List Char)) : ∀ bs,
    cmpParts as bs = true → cmpParts bs as = false := by
  induction as with
  | nil =>
    intro bs h
    cases bs with
    | nil => simp [cmpParts] at h
    | cons b bs => simp [cmpParts]
  | cons a as ih =>
    intro bs h
    cases bs with
    | nil => simp [cmpParts] at h
    | cons b bs =>
      rw [cmpParts_head] at h
      rw [cmpParts_head, partOrd_swap]
      rcases hp : partOrd a b with _ | _ | _
      · simp [Ordering.swap]
      · rw [hp] at h
        simpa [Ordering.swap] using ih bs h
      · rw [hp] at h
        simp at h

/-- C4: CompareVersions(v1, v2) returns true (v1 is older) exactly per the
claim's reference algorithm — rewrite every u and _ in both strings to a dot,
split both on dots, compare position by position (numerically when both parts
parse as integers in Go's sense, byte-lexicographically otherwise), decide at
the first position where the parts differ, and when all compared positions are
equal return true iff v1 has strictly fewer parts; in particular
CompareVersions("21.0.6", "21.0.6_7") = true. -/
theorem c4_compare_reference :
    (∀ v1 v2 : String, CompareVersions v1 v2 = specOlder v1 v2) ∧
    CompareVersions "21.0.6" "21.0.6_7" = true :=
  ⟨fun v1 v2 => cmpParts_spec (verParts v1) (verParts v2), by decide⟩

/-- C6: for every pair of version strings x and y with x distinct from y,
CompareVersions(x, y) and CompareVersions(y, x) are not both true. -/
theorem c6_compare_asymmetric (x y : String) (_hxy : x ≠ y) :
    ¬(CompareVersions x y = true ∧ CompareVersions y x = true) := by
  rintro ⟨h1, h2⟩
  have h3 : CompareVersions y x = false := cmpParts_asymm _ _ h1
  rw [h2] at h3
  exact Bool.noConfusion h3

/-- Witness for C6 at the concrete distinct pair 1 and 2. -/
theorem c6_witness :
    ¬(CompareVersions "1" "2" = true ∧ CompareVersions "2" "1" = true) :=
  c6_compare_asymmetric "1" "2" (by decide)

/-- Appending on the right of a findSome? scan: the left scan decides first. -/
theorem findSome?_append_or {α β : Type} (f : α → Option β) (l1 l2 : List α) :
    (l1 ++ l2).findSome? f
      = (match l1.findSome? f with
         | some b => some b
         | none => l2.findSome? f) := by
  induction l1 with
  | nil => simp
  | cons a l ih =>
    cases hfa : f a <;>
      simp [List.findSome?_cons, hfa, ih]

/-- A findSome? scan over a mapped list scans the composite. -/
theorem findSome?_over_map {α β γ : Type} (f : α → β) (g : β → Option γ)
    (l : List α) : (l.map f).findSome? g = l.findSome? fun a => g (f a) := by
  induction l with
  | nil => simp
  | cons a l ih => simp [List.findSome?_cons, ih]

/-- An Option.map inside the scanned function commutes out of findSome?. -/
theorem findSome?_pull_map {α β γ : Type} (f : α → Option β) (h : β → γ)
    (l : List α) :
    (l.findSome? fun a => (f a).map h) = (l.findSome? f).map h := by
  induction l with
  | nil => simp
  | cons a l ih =>
    cases hfa : f a <;> simp [List.findSome?_cons, hfa, ih]

/-- A findSome? scan of a function that is none everywhere yields none. -/
theorem findSome?_all_none {α β : Type} (f : α → Option β) (l : List α)
    (hf : ∀ a ∈ l, f a = none) : l.findSome? f = none := by
  induction l with
  | nil => simp
  | cons a l ih =>
    rw [List.findSome?_cons, hf a (List.mem_cons_self a l)]
    exact ih fun x hx => hf x (List.mem_cons_of_mem a hx)

/-- Replacing the middle element by one the scanned function cannot tell apart
leaves a findSome? scan unchanged. -/
theorem findSome?_congr_mid {α β : Type} (f : α → Option β) (l1 l2 : List α)
    (x x' : α) (hx : f x = f x') :
    (l1 ++ x :: l2).findSome? f = (l1 ++ x' :: l2).findSome? f := by
  induction l1 with
  | nil => simp [List.findSome?_cons, hx]
  | cons a l ih => simp [List.findSome?_cons, ih]

/-- Dropping a middle element on which the scanned function is none leaves a
findSome? scan unchanged. -/
theorem findSome?_mid_none {α β : Type} (f : α → Option β) (l1 l2 : List α)
    (x : α) (hx : f x = none) :
    (l1 ++ x :: l2).findSome? f = (l1 ++ l2).findSome? f := by
  induction l1 with
  | nil => simp [List.findSome?_cons, hx]
  | cons a l ih => simp [List.findSome?_cons, ih]

/-- A guarded findSome? scan is a scan over the filtered list. -/
theorem findSome?_guard_filter {α β : Type} (p : α → Bool) (f : α → Option β)
    (l : List α) :
    (l.findSome? fun a => if p a then f a else none)
      = (l.filter p).findSome? f := by
  induction l with
  | nil => simp
  | cons a l ih =>
    cases hpa : p a <;>
      simp [List.findSome?_cons, List.filter_cons, hpa, ih]

/-- Scanning the flattened rule list is the nested scan of the table. -/
theorem findSome?_flatRules {γ : Type} (pats : List Pattern)
    (g : String × String → Option γ) :
    (flatRules pats).findSome? g
      = pats.findSome? fun pat =>
          (pat.patterns.map fun rx => (pat.name, rx)).findSome? g := by
  induction pats with
  | nil => simp [flatRules]
  | cons pat pats ih =>
    rw [flatRules, List.flatMap_cons, findSome?_append_or]
    rw [flatRules] at ih
    cases hh : (pat.patterns.map fun rx => (pat.name, rx)).findSome? g <;>
      simp [List.findSome?_cons, hh, ih]

/-- The extraction loop equals the flattened first-match scan. -/
theorem extract_eq_flat (eng : RegexEngine) (p : Parser) (path : String) :
    Parser.ExtractVersion eng p path = specExtract eng p path := by
  simp only [Parser.ExtractVersion, specExtract]
  rw [findSome?_flatRules]
  congr 1
  funext pat
  simp only [findSome?_over_map, findSome?_pull_map]
  rfl

/-- The typed extraction loop equals the flattened first-match scan over the
applicable patterns. -/
theorem extractByType_eq_flat (eng : RegexEngine) (p : Parser)
    (path ty : String) :
    Parser.ExtractVersionByType eng p path ty = specExtractByType eng p path ty := by
  have hfun : (fun pat : Pattern =>
        if !(pat.type == ty) && !(pat.type == "*") then none
        else (patternFirst eng pat path).map fun v => (v, pat.name))
      = (fun pat : Pattern =>
        if (pat.type == ty || pat.type == "*") then
          (patternFirst eng pat path).map fun v => (v, pat.name)
        else none) := by
    funext pat
    cases h1 : pat.type == ty <;> cases h2 : pat.type == "*" <;> simp [h1, h2]
  simp only [Parser.ExtractVersionByType, specExtractByType]
  rw [hfun, findSome?_guard_filter, findSome?_flatRules]
  congr 1
  funext pat
  simp only [findSome?_over_map, findSome?_pull_map]
  rfl

/-- C1 (amended): for every engine, loaded pattern table and path string,
ExtractVersion (and ExtractVersionByType under its type filter) returns the
(version, patternName) pair produced by the first regex — iterating PatternSets
in stored table order and regexes within each PatternSet in stored list
order — whose match against the path yields a first capture group, which may
be empty (the claim's non-emptiness requirement does not hold of the code);
in particular, when nothing before P1 matches and P1 and a later P2 both
match, the returned pair is P1's match. -/
theorem c1_first_match_amended :
    (∀ (eng : RegexEngine) (p : Parser) (path : String),
        Parser.ExtractVersion eng p path = specExtract eng p path) ∧
    (∀ (eng : RegexEngine) (p : Parser) (path ty : String),
        Parser.ExtractVersionByType eng p path ty = specExtractByType eng p path ty) ∧
    (∀ (eng : RegexEngine) (path : String) (pre mid post : List Pattern)
        (P1 P2 : Pattern) (v1 v2 : String),
        (∀ q ∈ pre, patternFirst eng q path = none) →
        patternFirst eng P1 path = some v1 →
        patternFirst eng P2 path = some v2 →
        Parser.ExtractVersion eng ⟨pre ++ P1 :: mid ++ P2 :: post⟩ path
          = some (v1, P1.name)) := by
  refine ⟨extract_eq_flat, extractByType_eq_flat, ?_⟩
  intro eng path pre mid post P1 P2 v1 v2 hpre h1 _h2
  show (pre ++ P1 :: mid ++ P2 :: post).findSome?
      (fun pat => (patternFirst eng pat path).map fun v => (v, pat.name))
    = some (v1, P1.name)
  rw [findSome?_append_or _ (pre ++ P1 :: mid) (P2 :: post),
      findSome?_append_or _ pre (P1 :: mid),
      findSome?_all_none _ pre (fun q hq => by simp [hpre q hq])]
  simp [List.findSome?_cons, h1]

/-- C1 counterexample: under the single pattern source (b*)c — whose first
capture group matches the empty string on the path c — the code returns the
empty capture as a successful extraction, while the claim's
non-empty-first-capture-group rule returns no match at all. -/
theorem c1_counterexample :
    Parser.ExtractVersion engBsC ⟨[⟨"p", "jdk", "", ["(b*)c"]⟩]⟩ "c"
        = some ("", "p") ∧
    claimExtract engBsC ⟨[⟨"p", "jdk", "", ["(b*)c"]⟩]⟩ "c" = none := by
  decide

/-- Witness for C1 (amended): two pattern sets both matching; the first one's
pair is returned. -/
theorem c1_witness :
    Parser.ExtractVersion engNum
        ⟨[⟨"p1", "jdk", "", ["(\\d+)"]⟩, ⟨"p2", "jdk", "", ["(\\d+)"]⟩]⟩ "jdk-11"
      = some ("11", "p1") :=
  c1_first_match_amended.2.2 engNum "jdk-11" [] [] []
    ⟨"p1", "jdk", "", ["(\\d+)"]⟩ ⟨"p2", "jdk", "", ["(\\d+)"]⟩ "11" "11"
    (fun q hq => nomatch hq) (by decide) (by decide)

/-- C9: a regex that fails to compile is skipped in place: extraction over a
table containing it equals extraction over the table with exactly that regex
removed, both unfiltered and under any type filter — so a single malformed
regex never fails the whole call, and every later regex in the same PatternSet
and every later PatternSet is still tried. -/
theorem c9_bad_regex_skipped (eng : RegexEngine) (path : String)
    (pre post : List Pattern) (nm ty ds : String)
    (rpre rpost : List String) (rx : String) (hrx : eng rx = none) :
    (Parser.ExtractVersion eng ⟨pre ++ ⟨nm, ty, ds, rpre ++ rx :: rpost⟩ :: post⟩ path
      = Parser.ExtractVersion eng ⟨pre ++ ⟨nm, ty, ds, rpre ++ rpost⟩ :: post⟩ path) ∧
    (∀ sdkType : String,
      Parser.ExtractVersionByType eng
          ⟨pre ++ ⟨nm, ty, ds, rpre ++ rx :: rpost⟩ :: post⟩ path sdkType
        = Parser.ExtractVersionByType eng
            ⟨pre ++ ⟨nm, ty, ds, rpre ++ rpost⟩ :: post⟩ path sdkType) := by
  have hpf : patternFirst eng ⟨nm, ty, ds, rpre ++ rx :: rpost⟩ path
      = patternFirst eng ⟨nm, ty, ds, rpre ++ rpost⟩ path := by
    unfold patternFirst
    exact findSome?_mid_none _ rpre rpost rx (by simp [tryRegex, hrx])
  constructor
  · exact findSome?_congr_mid _ pre post _ _ (by simp [hpf])
  · intro sdkType
    exact findSome?_congr_mid _ pre post _ _ (by simp [hpf])

/-- Witness for C9: the malformed source consisting of one open parenthesis is
skipped and the digit pattern after it still extracts. -/
theorem c9_witness :
    Parser.ExtractVersion engNum ⟨[⟨"p", "jdk", "", ["(", "(\\d+)"]⟩]⟩ "v11"
      = Parser.ExtractVersion engNum ⟨[⟨"p", "jdk", "", ["(\\d+)"]⟩]⟩ "v11" :=
  (c9_bad_regex_skipped engNum "v11" [] [] "p" "jdk" "" [] ["(\\d+)"] "("
    (by simp [engNum])).1

/-- A takeWhile scan of a run of true elements followed by a false one keeps
exactly the run, and the matching dropWhile keeps the rest. -/
theorem takeWhile_run {q : Char → Bool} :
    ∀ (d : List Char) (c : Char) (r : List Char),
      (∀ x ∈ d, q x = true) → q c = false →
      (d ++ c :: r).takeWhile q = d ∧ (d ++ c :: r).dropWhile q = c :: r := by
  intro d
  induction d with
  | nil =>
    intro c r _ hc
    simp [List.takeWhile_cons, List.dropWhile_cons, hc]
  | cons a d ih =>
    intro c r hd hc
    have ha : q a = true := hd a (List.mem_cons_self a d)
    have hih := ih c r (fun x hx => hd x (List.mem_cons_of_mem a hx)) hc
    simp [List.takeWhile_cons, List.dropWhile_cons, ha, hih.1, hih.2]

/-- A takeWhile scan passes over a run of true elements and a further true
element. -/
theorem takeWhile_run_go {q : Char → Bool} :
    ∀ (d : List Char) (c : Char) (r : List Char),
      (∀ x ∈ d, q x = true) → q c = true →
      (d ++ c :: r).takeWhile q = d ++ c :: r.takeWhile q := by
  intro d
  induction d with
  | nil => intro c r _ hc; simp [List.takeWhile_cons, hc]
  | cons a d ih =>
    intro c r hd hc
    have ha : q a = true := hd a (List.mem_cons_self a d)
    have hih := ih c r (fun x hx => hd x (List.mem_cons_of_mem a hx)) hc
    simp [List.takeWhile_cons, ha, hih]

/-- A takeWhile scan of an all-true list is the list. -/
theorem takeWhile_all {q : Char → Bool} :
    ∀ d : List Char, (∀ x ∈ d, q x = true) → d.takeWhile q = d := by
  intro d
  induction d with
  | nil => intro _; rfl
  | cons a d ih =>
    intro hd
    have ha : q a = true := hd a (List.mem_cons_self a d)
    simp [List.takeWhile_cons, ha, ih fun x hx => hd x (List.mem_cons_of_mem a hx)]

/-- A list contains any element it visibly holds. -/
theorem contains_mid (d r : List Char) (c : Char) :
    (d ++ c :: r).contains c = true := by
  induction d with
  | nil => simp [List.contains_cons]
  | cons a d ih => simp [List.contains_cons, ih]

/-- A digit is not a dot and not a u. -/
theorem digit_ne_sep {x : Char} (hx : x.isDigit = true) :
    (x == '.') = false ∧ (x == 'u') = false := by
  constructor
  · refine beq_eq_false_iff_ne.mpr fun he => ?_
    rw [he] at hx
    exact absurd hx (by decide)
  · refine beq_eq_false_iff_ne.mpr fun he => ?_
    rw [he] at hx
    exact absurd hx (by decide)

/-- The leading-digits check fires on a nonempty digit run followed by the
separator. -/
theorem leadDigitsThen_app (sep : Char) (d r : List Char)
    (hd : ∀ x ∈ d, x.isDigit = true) (hne : d ≠ []) (hsep : sep.isDigit = false) :
    leadDigitsThen sep (d ++ sep :: r) = some d := by
  have hr := takeWhile_run d sep r hd hsep
  unfold leadDigitsThen
  rw [hr.1, hr.2]
  cases d with
  | nil => exact absurd rfl hne
  | cons a d => simp

/-- The leading-digits check misses when the char after the digit run is a
non-digit other than the separator. -/
theorem leadDigitsThen_app_ne (sep c : Char) (d r : List Char)
    (hd : ∀ x ∈ d, x.isDigit = true) (hc : c.isDigit = false) (hcs : c ≠ sep) :
    leadDigitsThen sep (d ++ c :: r) = none := by
  have hr := takeWhile_run d c r hd hc
  unfold leadDigitsThen
  rw [hr.1, hr.2]
  cases d with
  | nil => rfl
  | cons a d => simp [hcs]

/-- Evaluation of the fallback branch of ExtractMajor when the cleaned
remainder is a nonempty digit run followed by a dot or a u: the digit run is
returned exactly when strconv.Atoi accepts it. -/
theorem extractMajor_fallback (version : String) (d r : List Char) (sep : Char)
    (h1 : leadDigitsThen '.' version.data = none)
    (h2 : leadDigitsThen 'u' version.data = none)
    (hdec : trimAlphaDash version.data = d ++ sep :: r)
    (_hne : d ≠ []) (hdig : ∀ x ∈ d, x.isDigit = true)
    (hsep : sep = '.' ∨ sep = 'u') :
    ExtractMajor version
      = (match goAtoi d with
         | some _ => String.mk d
         | none => "") := by
  have hnonempty : version.data.isEmpty = false := by
    cases hE : version.data with
    | nil =>
      rw [hE] at hdec
      simp only [trimAlphaDash, List.dropWhile_nil] at hdec
      exact absurd hdec.symm (by simp)
    | cons a l => rfl
  have hq1 : ∀ x ∈ d, (!(x == '.')) = true := fun x hx => by
    simp [(digit_ne_sep (hdig x hx)).1]
  have hq2 : ∀ x ∈ d, (!(x == 'u')) = true := fun x hx => by
    simp [(digit_ne_sep (hdig x hx)).2]
  have hmp : ((d ++ sep :: r).takeWhile fun c => !(c == '.')).takeWhile
      (fun c => !(c == 'u')) = d := by
    rcases hsep with rfl | rfl
    · rw [(takeWhile_run d '.' r hq1 (by decide)).1]
      exact takeWhile_all d hq2
    · rw [takeWhile_run_go d 'u' r hq1 (by decide)]
      exact (takeWhile_run d 'u' (List.takeWhile (fun c => !(c == '.')) r)
        hq2 (by decide)).1
  unfold ExtractMajor
  rw [hnonempty, h1, h2, hdec, hmp]
  rcases hsep with rfl | rfl
  · rw [contains_mid d r '.']
    simp
  · rw [contains_mid d r 'u']
    simp

/-- C5 counterexample: on an input whose cleaned remainder starts with a
20-digit run followed by a dot, the code returns the empty string (Atoi
rejects the run as out of 64-bit range), while the claim's retry of the two
separator checks on the cleaned remainder returns the digit run. -/
theorem c5_counterexample :
    ExtractMajor "jdk-99999999999999999999.1" = "" ∧
    claimExtractMajor "jdk-99999999999999999999.1" = "99999999999999999999" := by
  decide

/-- C5 (amended): ExtractMajor returns the leading digit run when the input
starts with digits followed by a dot or by a u; otherwise it strips any
leading alphabetic/dash/underscore prefix and retries the separator checks on
the remainder, except that the retried run is returned only when it parses as
a signed 64-bit integer and yields the empty string otherwise; it returns the
empty string whenever the cleaned remainder contains neither a dot nor a u
anywhere; concretely ExtractMajor("8u442b06") = "8", ExtractMajor("21") = ""
and ExtractMajor("") = "". -/
theorem c5_extract_major_amended :
    (∀ (version : String) (d r : List Char) (c : Char),
        version.data = d ++ c :: r → d ≠ [] → (∀ x ∈ d, x.isDigit = true) →
        (c = '.' ∨ c = 'u') →
        ExtractMajor version = String.mk d) ∧
    (∀ version : String,
        leadDigitsThen '.' version.data = none →
        leadDigitsThen 'u' version.data = none →
        (trimAlphaDash version.data).contains '.' = false →
        (trimAlphaDash version.data).contains 'u' = false →
        ExtractMajor version = "") ∧
    (∀ (version : String) (d r : List Char) (sep : Char),
        leadDigitsThen '.' version.data = none →
        leadDigitsThen 'u' version.data = none →
        trimAlphaDash version.data = d ++ sep :: r →
        d ≠ [] → (∀ x ∈ d, x.isDigit = true) → (sep = '.' ∨ sep = 'u') →
        (∀ n, goAtoi d = some n → ExtractMajor version = String.mk d) ∧
        (goAtoi d = none → ExtractMajor version = "")) ∧
    (ExtractMajor "8u442b06" = "8" ∧ ExtractMajor "21" = "" ∧
      ExtractMajor "" = "") := by
  refine ⟨?_, ?_, ?_, by decide, by decide, by decide⟩
  · intro version d r c hdata hne hdig hc
    have hnonempty : version.data.isEmpty = false := by
      rw [hdata]; cases d <;> rfl
    rcases hc with rfl | rfl
    · have hl : leadDigitsThen '.' version.data = some d := by
        rw [hdata]; exact leadDigitsThen_app '.' d r hdig hne (by decide)
      unfold ExtractMajor
      rw [hnonempty, hl]
      rfl
    · have hl0 : leadDigitsThen '.' version.data = none := by
        rw [hdata]; exact leadDigitsThen_app_ne '.' 'u' d r hdig (by decide) (by decide)
      have hl : leadDigitsThen 'u' version.data = some d := by
        rw [hdata]; exact leadDigitsThen_app 'u' d r hdig hne (by decide)
      unfold ExtractMajor
      rw [hnonempty, hl0, hl]
      rfl
  · intro version h1 h2 hc1 hc2
    cases hE : version.data.isEmpty
    · unfold ExtractMajor
      rw [hE, h1, h2, hc1, hc2]
      rfl
    · unfold ExtractMajor
      rw [hE]
      rfl
  · intro version d r sep h1 h2 hdec hne hdig hsep
    have hfb := extractMajor_fallback version d r sep h1 h2 hdec hne hdig hsep
    constructor
    · intro n hn
      rw [hfb, hn]
    · intro hn
      rw [hfb, hn]

/-- Witness for C5 (amended) on the retry clause at a concrete prefixed
input. -/
theorem c5_witness : ExtractMajor "jdk-17.0.11" = "17" := by
  have h := (c5_extract_major_amended.2.2.1 "jdk-17.0.11" ['1', '7']
    ['0', '.', '1', '1'] '.' (by decide) (by decide) (by decide) (by decide)
    (by decide) (Or.inl rfl)).1 17 (by decide)
  exact h.trans (by decide)

/-- The source's normalization agrees with the claim's ensure-leading-slash,
ensure-trailing-slash normalization. -/
theorem normDistPath_eq_spec (dp : String) :
    normDistPath dp = specNormDistPath dp := by
  have hbase : '/' :: trimLeadSlash dp.data = ensureLeadSlash dp.data := by
    cases dp.data with
    | nil => rfl
    | cons c rest =>
      show '/' :: (if c = '/' then rest else c :: rest)
          = if c = '/' then c :: rest else '/' :: c :: rest
      by_cases hc : c = '/'
      · rw [if_pos hc, if_pos hc, hc]
      · rw [if_neg hc, if_neg hc]
  unfold normDistPath specNormDistPath
  rw [hbase]

/-- The claim-side normalization starts with a slash. -/
theorem ensureLeadSlash_shape (cs : List Char) :
    ∃ t, ensureLeadSlash cs = '/' :: t := by
  cases cs with
  | nil => exact ⟨[], rfl⟩
  | cons c rest =>
    show ∃ t, (if c = '/' then c :: rest else '/' :: c :: rest) = '/' :: t
    by_cases hc : c = '/'
    · subst hc; rw [if_pos rfl]; exact ⟨rest, rfl⟩
    · rw [if_neg hc]; exact ⟨c :: rest, rfl⟩

/-- The normalized path begins with a slash. -/
theorem specNormDistPath_head (dp : String) :
    (specNormDistPath dp).head? = some '/' := by
  obtain ⟨t, ht⟩ := ensureLeadSlash_shape dp.data
  unfold specNormDistPath
  rw [ht]
  split
  · rfl
  · rfl

/-- The normalized path ends with a slash. -/
theorem specNormDistPath_last (dp : String) :
    (specNormDistPath dp).getLast? = some '/' := by
  unfold specNormDistPath
  split
  · assumption
  · exact List.getLast?_concat _

/-- With a non-empty configured path, retention is exactly the literal-prefix
test against the normalized path. -/
theorem retained_iff (dp : String) (hdp : dp ≠ "") (item : NexusAsset) :
    retainedItem dp item = hasPre item.path.data (specNormDistPath dp) := by
  unfold retainedItem
  rw [beq_eq_false_iff_ne.mpr hdp, normDistPath_eq_spec]
  simp

/-- The processing loop ignores items the retention test rejects: filtering
them away first changes nothing. -/
theorem collectLoop_filter (eng : RegexEngine) (p : Parser) (dp ty : String) :
    ∀ (items : List NexusAsset) (seen : List String),
      collectLoop eng p dp ty seen items
        = collectLoop eng p dp ty seen (items.filter (retainedItem dp)) := by
  intro items
  induction items with
  | nil => intro seen; rfl
  | cons item rest ih =>
    intro seen
    cases hr : retainedItem dp item
    · simp [collectLoop, List.filter_cons, hr, ih seen]
    · rcases he : Parser.ExtractVersionByType eng p item.path ty with _ | ⟨v, pn⟩
      · simp [collectLoop, List.filter_cons, hr, he, ih seen]
      · cases hs : seen.contains v
        · have hm : v ∉ seen := by simpa using hs
          simp [collectLoop, List.filter_cons, hr, he, hm, ih]
        · have hm : v ∈ seen := by simpa using hs
          simp [collectLoop, List.filter_cons, hr, he, hm, ih seen]

/-- A shared prefix cancels on both sides of an isPrefixOf test. -/
theorem isPrefixOf_append_same (q : List Char) : ∀ a b : List Char,
    (q ++ a).isPrefixOf (q ++ b) = a.isPrefixOf b := by
  induction q with
  | nil => intro a b; rfl
  | cons c q ih =>
    intro a b
    show (c == c && (q ++ a).isPrefixOf (q ++ b)) = a.isPrefixOf b
    simp [ih]

/-- C2: for every non-empty configured distribution path, the source's
normalization equals the claim's (begin with a slash, end with a slash, shown
by the head and last facts), an item is retained exactly when its path has the
normalized path as a literal prefix, the pipeline's processing is unchanged by
first dropping the non-retained items, and an item whose path extends the
normalized prefix minus its trailing slash with a dash is never retained. -/
theorem c2_prefix_boundary (dp : String) (hdp : dp ≠ "") :
    (normDistPath dp = specNormDistPath dp) ∧
    ((specNormDistPath dp).head? = some '/' ∧
      (specNormDistPath dp).getLast? = some '/') ∧
    (∀ item : NexusAsset,
        retainedItem dp item = hasPre item.path.data (specNormDistPath dp)) ∧
    (∀ (eng : RegexEngine) (p : Parser) (ty : String) (items : List NexusAsset),
        collectAssets eng p dp ty items
          = collectAssets eng p dp ty (items.filter (retainedItem dp))) ∧
    (∀ (q r : List Char) (item : NexusAsset),
        normDistPath dp = q ++ ['/'] → item.path.data = q ++ '-' :: r →
        retainedItem dp item = false) := by
  refine ⟨normDistPath_eq_spec dp, ⟨specNormDistPath_head dp, specNormDistPath_last dp⟩,
    retained_iff dp hdp, fun eng p ty items => collectLoop_filter eng p dp ty items [],
    ?_⟩
  intro q r item hn hp
  unfold retainedItem hasPre
  rw [beq_eq_false_iff_ne.mpr hdp, hn, hp, isPrefixOf_append_same q ['/'] ('-' :: r)]
  rfl

/-- Witness for C2: the temurin-nightly sibling of the temurin prefix is
rejected. -/
theorem c2_witness :
    retainedItem "/jdk/temurin" ⟨"/jdk/temurin-nightly/x.tar.gz", "u"⟩ = false :=
  (c2_prefix_boundary "/jdk/temurin" (by decide)).2.2.2.2 "/jdk/temurin".data
    "nightly/x.tar.gz".data ⟨"/jdk/temurin-nightly/x.tar.gz", "u"⟩
    (by decide) (by decide)

/-- The predicate identifying the listing item kept for version v: retained by
the path filter and extracting exactly v under the type filter. -/
def keepFor (eng : RegexEngine) (p : Parser) (dp ty v : String)
    (i : NexusAsset) : Bool :=
  retainedItem dp i && (extractedV eng p ty i == some v)

/-- Versions emitted by the processing loop are fresh relative to the seen set,
and pairwise distinct. -/
theorem collectLoop_fresh (eng : RegexEngine) (p : Parser) (dp ty : String) :
    ∀ (items : List NexusAsset) (seen : List String),
      (∀ a ∈ collectLoop eng p dp ty seen items, a.version ∉ seen) ∧
      ((collectLoop eng p dp ty seen items).map SDKAsset.version).Nodup := by
  intro items
  induction items with
  | nil =>
    intro seen
    exact ⟨fun a ha => absurd ha (by simp [collectLoop]), by simp [collectLoop]⟩
  | cons item rest ih =>
    intro seen
    cases hr : retainedItem dp item
    · have hstep : collectLoop eng p dp ty seen (item :: rest)
          = collectLoop eng p dp ty seen rest := by simp [collectLoop, hr]
      rw [hstep]; exact ih seen
    · rcases he : Parser.ExtractVersionByType eng p item.path ty with _ | ⟨v, pn⟩
      · have hstep : collectLoop eng p dp ty seen (item :: rest)
            = collectLoop eng p dp ty seen rest := by simp [collectLoop, hr, he]
        rw [hstep]; exact ih seen
      · cases hs : seen.contains v
        · have hm : v ∉ seen := by simpa using hs
          have hstep : collectLoop eng p dp ty seen (item :: rest)
              = ⟨v, item.downloadUrl, v, 0⟩
                  :: collectLoop eng p dp ty (v :: seen) rest := by
            simp [collectLoop, hr, he, hm]
          rw [hstep]
          obtain ⟨ihd, ihn⟩ := ih (v :: seen)
          constructor
          · intro a ha
            rcases List.mem_cons.mp ha with rfl | ha
            · exact hm
            · have hin := ihd a ha
              exact fun hcon => hin (List.mem_cons_of_mem v hcon)
          · rw [List.map_cons]
            refine List.nodup_cons.mpr ⟨?_, ihn⟩
            intro hmem
            rcases List.mem_map.mp hmem with ⟨a, ha, hav⟩
            exact (ihd a ha) (hav ▸ List.mem_cons_self v seen)
        · have hm : v ∈ seen := by simpa using hs
          have hstep : collectLoop eng p dp ty seen (item :: rest)
              = collectLoop eng p dp ty seen rest := by
            simp [collectLoop, hr, he, hm]
          rw [hstep]; exact ih seen

/-- Every asset the processing loop emits is built from the first listing item
that is retained and extracts that asset's version: its download URL and the
version string fill the asset, the filename repeats the version and the size
is zero. -/
theorem collectLoop_first_wins (eng : RegexEngine) (p : Parser) (dp ty : String) :
    ∀ (items : List NexusAsset) (seen : List String) (a : SDKAsset),
      a ∈ collectLoop eng p dp ty seen items →
      ∃ it : NexusAsset,
        items.find? (keepFor eng p dp ty a.version) = some it ∧
        a = ⟨a.version, it.downloadUrl, a.version, 0⟩ := by
  intro items
  induction items with
  | nil => intro seen a ha; exact absurd ha (by simp [collectLoop])
  | cons item rest ih =>
    intro seen a ha
    cases hr : retainedItem dp item
    · have hstep : collectLoop eng p dp ty seen (item :: rest)
          = collectLoop eng p dp ty seen rest := by simp [collectLoop, hr]
      rw [hstep] at ha
      obtain ⟨it, hf, hsh⟩ := ih seen a ha
      have hk : ¬ keepFor eng p dp ty a.version item = true := by
        simp [keepFor, hr]
      exact ⟨it, by rw [List.find?_cons_of_neg _ hk, hf], hsh⟩
    · rcases he : Parser.ExtractVersionByType eng p item.path ty with _ | ⟨v, pn⟩
      · have hstep : collectLoop eng p dp ty seen (item :: rest)
            = collectLoop eng p dp ty seen rest := by simp [collectLoop, hr, he]
        rw [hstep] at ha
        obtain ⟨it, hf, hsh⟩ := ih seen a ha
        have hk : ¬ keepFor eng p dp ty a.version item = true := by
          simp [keepFor, extractedV, he]
        exact ⟨it, by rw [List.find?_cons_of_neg _ hk, hf], hsh⟩
      · cases hs : seen.contains v
        · have hm : v ∉ seen := by simpa using hs
          have hstep : collectLoop eng p dp ty seen (item :: rest)
              = ⟨v, item.downloadUrl, v, 0⟩
                  :: collectLoop eng p dp ty (v :: seen) rest := by
            simp [collectLoop, hr, he, hm]
          rw [hstep] at ha
          rcases List.mem_cons.mp ha with rfl | ha
          · refine ⟨item, ?_, rfl⟩
            have hk : keepFor eng p dp ty v item = true := by
              simp [keepFor, extractedV, he, hr]
            exact List.find?_cons_of_pos _ hk
          · obtain ⟨it, hf, hsh⟩ := ih (v :: seen) a ha
            have hneq : a.version ≠ v := by
              have hin := (collectLoop_fresh eng p dp ty rest (v :: seen)).1 a ha
              exact fun hEq => hin (hEq ▸ List.mem_cons_self v seen)
            have hk : ¬ keepFor eng p dp ty a.version item = true := by
              simp [keepFor, extractedV, he, Ne.symm hneq]
            exact ⟨it, by rw [List.find?_cons_of_neg _ hk, hf], hsh⟩
        · have hm : v ∈ seen := by simpa using hs
          have hstep : collectLoop eng p dp ty seen (item :: rest)
              = collectLoop eng p dp ty seen rest := by
            simp [collectLoop, hr, he, hm]
          rw [hstep] at ha
          obtain ⟨it, hf, hsh⟩ := ih seen a ha
          have hneq : a.version ≠ v := by
            have hin := (collectLoop_fresh eng p dp ty rest seen).1 a ha
            exact fun hEq => hin (hEq ▸ hm)
          have hk : ¬ keepFor eng p dp ty a.version item = true := by
            simp [keepFor, extractedV, he, Ne.symm hneq]
          exact ⟨it, by rw [List.find?_cons_of_neg _ hk, hf], hsh⟩

/-- Membership survives the optional version filter backwards. -/
theorem filterAssets_mem {vf : String} {l : List SDKAsset} {a : SDKAsset}
    (h : a ∈ filterAssets vf l) : a ∈ l := by
  unfold filterAssets at h
  split at h
  · exact h
  · exact List.mem_of_mem_filter h

/-- The optional version filter produces a sublist. -/
theorem filterAssets_sublist (vf : String) (l : List SDKAsset) :
    (filterAssets vf l).Sublist l := by
  unfold filterAssets
  split
  · exact List.Sublist.refl l
  · exact List.filter_sublist l

/-- Inserting into the descending sort permutes a cons. -/
theorem insertDesc_perm (a : SDKAsset) (l : List SDKAsset) :
    (insertDesc a l).Perm (a :: l) := by
  induction l with
  | nil => exact List.Perm.refl _
  | cons b bs ih =>
    show (if versionGtB a b then a :: b :: bs else b :: insertDesc a bs).Perm _
    split
    · exact List.Perm.refl _
    · exact (List.Perm.cons b ih).trans (List.Perm.swap a b bs)

/-- The descending sort permutes its input. -/
theorem sortAssets_perm (l : List SDKAsset) : (sortAssets l).Perm l := by
  induction l with
  | nil => exact List.Perm.refl _
  | cons a as ih =>
    exact (insertDesc_perm a (sortAssets as)).trans (List.Perm.cons a ih)

/-- A successful GetAvailableVersions run returns exactly the sorted, filtered,
deduplicated assets of the accumulated items. -/
theorem getAvailable_ok {eng : RegexEngine} {p : Parser} {dp ty vf : String}
    {pages : List ListingPage} {assets : List SDKAsset}
    (h : GetAvailableVersions eng p dp ty vf pages = Except.ok assets) :
    assets = sortAssets (filterAssets vf
      (collectAssets eng p dp ty (paginate pages).1)) := by
  unfold GetAvailableVersions availableCore at h
  split at h
  · split at h <;> exact absurd h (by simp)
  · injection h with h
    exact h.symm

/-- C3: in every successful GetAvailableVersions result no two assets share a
version string, and each asset is built from the first retained item (in
accumulated listing order) whose extraction produced its version string — that
item supplies the download URL, so the URL of every later item extracting the
same version is discarded. -/
theorem c3_dedup_first_wins (eng : RegexEngine) (p : Parser)
    (dp ty vf : String) (pages : List ListingPage) (assets : List SDKAsset)
    (h : GetAvailableVersions eng p dp ty vf pages = Except.ok assets) :
    (assets.map SDKAsset.version).Nodup ∧
    ∀ a ∈ assets, ∃ it : NexusAsset,
      (paginate pages).1.find? (keepFor eng p dp ty a.version) = some it ∧
      a = ⟨a.version, it.downloadUrl, a.version, 0⟩ := by
  have hs := getAvailable_ok h
  subst hs
  constructor
  · have h1 : ((filterAssets vf
        (collectAssets eng p dp ty (paginate pages).1)).map SDKAsset.version).Nodup :=
      List.Nodup.sublist
        (List.Sublist.map _ (filterAssets_sublist vf _))
        (collectLoop_fresh eng p dp ty (paginate pages).1 []).2
    exact ((sortAssets_perm _).map SDKAsset.version).nodup_iff.mpr h1
  · intro a ha
    have ha1 : a ∈ filterAssets vf (collectAssets eng p dp ty (paginate pages).1) :=
      ((sortAssets_perm _).mem_iff).mp ha
    exact collectLoop_first_wins eng p dp ty (paginate pages).1 [] a
      (filterAssets_mem ha1)

/-- C10: every asset of a successful GetAvailableVersions result has its
Filename equal to its Version (the extracted version string, not the matched
file's name) and a zero Size — the remote item contributes only its download
URL. -/
theorem c10_filename_is_version (eng : RegexEngine) (p : Parser)
    (dp ty vf : String) (pages : List ListingPage) (assets : List SDKAsset)
    (h : GetAvailableVersions eng p dp ty vf pages = Except.ok assets) :
    ∀ a ∈ assets, a.filename = a.version ∧ a.size = 0 := by
  have hs := getAvailable_ok h
  subst hs
  intro a ha
  have ha1 : a ∈ filterAssets vf (collectAssets eng p dp ty (paginate pages).1) :=
    ((sortAssets_perm _).mem_iff).mp ha
  obtain ⟨it, _, hsh⟩ := collectLoop_first_wins eng p dp ty (paginate pages).1 [] a
    (filterAssets_mem ha1)
  constructor
  · rw [hsh]
  · rw [hsh]

/-- The pagination loop over a run of token-bearing pages followed by a
token-less page: all of them and nothing after. -/
theorem paginate_run : ∀ (front : List ListingPage) (lastPg : ListingPage)
    (rest : List ListingPage),
    (∀ pg ∈ front, pg.continuationToken ≠ "") →
    lastPg.continuationToken = "" →
    paginate (front ++ lastPg :: rest)
      = (((front ++ [lastPg]).map ListingPage.items).flatten, front.length + 1) := by
  intro front
  induction front with
  | nil =>
    intro lastPg rest _ hlast
    simp [paginate, hlast, List.flatten]
  | cons pg front ih =>
    intro lastPg rest hfront hlast
    have hpg : (pg.continuationToken == "") = false :=
      beq_eq_false_iff_ne.mpr (hfront pg (List.mem_cons_self pg front))
    have hrec := ih lastPg rest (fun q hq => hfront q (List.mem_cons_of_mem pg hq)) hlast
    simp [paginate, hpg, hrec, List.flatten]

/-- C7: when every page before the final one carries a continuation token and
the final one does not, the pagination loop fetches the pages one at a time
starting with no token, stops immediately after the first token-less page
(responses after it are never fetched), and the working item set handed to the
filtering pipeline is the concatenation of the items of every fetched page. -/
theorem c7_pagination (front : List ListingPage) (lastPg : ListingPage)
    (rest : List ListingPage)
    (hfront : ∀ pg ∈ front, pg.continuationToken ≠ "")
    (hlast : lastPg.continuationToken = "") :
    paginate (front ++ lastPg :: rest)
      = (((front ++ [lastPg]).map ListingPage.items).flatten, front.length + 1) ∧
    ∀ (eng : RegexEngine) (p : Parser) (dp ty vf : String),
      GetAvailableVersions eng p dp ty vf (front ++ lastPg :: rest)
        = availableCore eng p dp ty vf
            (((front ++ [lastPg]).map ListingPage.items).flatten) := by
  have hp := paginate_run front lastPg rest hfront hlast
  refine ⟨hp, fun eng p dp ty vf => ?_⟩
  unfold GetAvailableVersions
  rw [hp]

/-- Witness for C7: two-page listing followed by an unreachable page. -/
theorem c7_witness :
    paginate [⟨[⟨"/a/1", "u1"⟩], "tk"⟩, ⟨[⟨"/a/2", "u2"⟩], ""⟩,
        ⟨[⟨"/a/3", "u3"⟩], "zz"⟩]
      = ([⟨"/a/1", "u1"⟩, ⟨"/a/2", "u2"⟩], 2) := by
  have h := (c7_pagination [⟨[⟨"/a/1", "u1"⟩], "tk"⟩] ⟨[⟨"/a/2", "u2"⟩], ""⟩
    [⟨[⟨"/a/3", "u3"⟩], "zz"⟩] (by decide) (by decide)).1
  exact h.trans (by decide)

/-- C8: whenever the filtering steps leave zero assets, GetAvailableVersions
returns an error, not an empty list: the message carries the configured path,
and the attempted filter when one was supplied. -/
theorem c8_empty_is_error (eng : RegexEngine) (p : Parser)
    (dp ty vf : String) (pages : List ListingPage)
    (h : filterAssets vf (collectAssets eng p dp ty (paginate pages).1) = []) :
    GetAvailableVersions eng p dp ty vf pages
      = Except.error (if vf ≠ "" then "no version " ++ vf ++ " found for " ++ dp
                      else "no versions found for " ++ dp) := by
  unfold GetAvailableVersions availableCore
  rw [h]
  by_cases hvf : vf = ""
  · subst hvf; simp
  · simp [beq_eq_false_iff_ne.mpr hvf, hvf]

/-- Concrete table used by the resolver witnesses. -/
def wParser : Parser := ⟨[⟨"t", "jdk", "", ["(\\d+)"]⟩]⟩

/-- Concrete single-page listing with two items extracting the same version. -/
def wPages : List ListingPage :=
  [⟨[⟨"/jdk/t/11.tar.gz", "http://x/11"⟩,
     ⟨"/jdk/t/11.tar.gz.sha", "http://x/11sha"⟩], ""⟩]

/-- Witness for C3: the two items extracting version 11 collapse to the first
one's asset, whose URL wins. -/
theorem c3_witness :
    (([(⟨"11", "http://x/11", "11", 0⟩ : SDKAsset)].map SDKAsset.version).Nodup) ∧
    ∀ a ∈ [(⟨"11", "http://x/11", "11", 0⟩ : SDKAsset)], ∃ it : NexusAsset,
      (paginate wPages).1.find? (keepFor engNum wParser "/jdk/t" "jdk" a.version)
        = some it ∧ a = ⟨a.version, it.downloadUrl, a.version, 0⟩ :=
  c3_dedup_first_wins engNum wParser "/jdk/t" "jdk" "" wPages
    [⟨"11", "http://x/11", "11", 0⟩] (by rfl)

/-- Witness for C10 on the same concrete run, at its single returned asset. -/
theorem c10_witness :
    (⟨"11", "http://x/11", "11", 0⟩ : SDKAsset).filename = "11" ∧
    (⟨"11", "http://x/11", "11", 0⟩ : SDKAsset).size = 0 :=
  c10_filename_is_version engNum wParser "/jdk/t" "jdk" "" wPages
    [⟨"11", "http://x/11", "11", 0⟩] (by rfl)
    ⟨"11", "http://x/11", "11", 0⟩ (List.mem_singleton.mpr rfl)

/-- Witness for C8: the empty listing yields the no-versions error carrying the
configured path. -/
theorem c8_witness :
    GetAvailableVersions engNum wParser "/jdk/t" "jdk" "" []
      = Except.error "no versions found for /jdk/t" := by
  have h := c8_empty_is_error engNum wParser "/jdk/t" "jdk" "" [] (by rfl)
  exact h.trans (congrArg Except.error (by decide))

end Strigo
